import Mathlib

/-!
Verification of the cy-parallel test distribution engine.

Shallow embedding of the core of the repository:
  * `src/utils/weightUtils.ts` (`getFileInfo`, the AST visit) and
    `src/utils/isCallTo.ts` (`isCallTo`),
  * `src/index.ts` (`getFileBucketsCustom`, the polling worker loop,
    the result aggregation),
  * `src/utils/envUtils.ts` (`getEnvVar`, `getConfig`),
  * `src/utils/fileUtils.ts` (`validateDir`, `getTestFiles`,
    `collectTestFiles`).

External effects (filesystem reads, the TypeScript parser, child
processes, `process.exit`) are modelled as explicit inputs and explicit
result values: a read/parse is an `Except` input, a spawned runner
process is summarised by the event the code observes (its close code or
a spawn error), and `process.exit n` is an `Except` error value carrying
the exit code.
-/

namespace CyParallel

/-! ## TypeScript AST model

A `ts.Node`, as observed by `weightUtils.visit` / `isCallTo`: the only
structure those functions inspect is (a) whether a node is a call
expression, (b) whether the callee (`node.expression`) is an identifier
or a property access and its source text, and (c) the node's children in
`ts.forEachChild` order.  Everything else is `other`.
-/

/-- The form of a call expression's callee (`node.expression`). -/
inductive CalleeForm where
  /-- The callee is a bare identifier (`it(...)`, `describe(...)`). -/
  | identC (name : String)
  /-- The callee is a property access (`describe.skip(...)`, `it.only(...)`):
      `obj` is `expression.getText()`, `meth` is `name.getText()`. -/
  | propAccess (obj : String) (meth : String)
  /-- The callee is neither an identifier nor a property access. -/
  | otherCallee
deriving DecidableEq, Repr

mutual
/-- A TypeScript AST node, as far as the weight estimator observes it. -/
inductive TsNode where
  /-- A call expression with its callee form and its children. -/
  | callExpr (callee : CalleeForm) (children : TsForest)
  /-- Any non-call node, with its children. -/
  | other (children : TsForest)

/-- The children of a node, in `ts.forEachChild` order. -/
inductive TsForest where
  | nil
  | cons (head : TsNode) (tail : TsForest)
end

/-- Embeds `isCallTo` from `src/utils/isCallTo.ts`: for a call expression
whose callee is a property access it compares the object text with
`objectName` (a JS `string === null` comparison is `false`, hence the
`none` case) and the member text with `methodName`; for an identifier
callee it requires `objectName === null` and compares the identifier text
with `methodName`; anything else is `false`. -/
def isCallTo (node : TsNode) (objectName : Option String) (methodName : String) : Bool :=
  match node with
  | .callExpr callee _ =>
    match callee with
    | .propAccess obj meth =>
      match objectName with
      | some o => obj == o && meth == methodName
      | none => false
    | .identC name =>
      match objectName with
      | none => name == methodName
      | some _ => false
    | .otherCallee => false
  | .other _ => false

mutual
/-- Embeds the `visit` closure of `getFileInfo` in
`src/utils/weightUtils.ts`.  The state is the pair
`(skippedDescribeStack, testCount)`; the JS `push` appends at the end of
the array and the matching `pop` removes the last element, mirrored here
by `++ [b]` and `dropLast`. -/
def visitNode (node : TsNode) (st : List Bool × Nat) : List Bool × Nat :=
  match node with
  | .callExpr callee cs =>
    let isEnteringDescribe :=
      isCallTo (.callExpr callee cs) (some "describe") "skip" ||
        isCallTo (.callExpr callee cs) none "describe"
    let stack1 :=
      if isCallTo (.callExpr callee cs) (some "describe") "skip" then st.1 ++ [true]
      else if isCallTo (.callExpr callee cs) none "describe" then st.1 ++ [false]
      else st.1
    let count1 :=
      if isCallTo (.callExpr callee cs) none "it.skip" ||
          isCallTo (.callExpr callee cs) none "it" then
        let isSkippedIt := isCallTo (.callExpr callee cs) none "it.skip"
        let isSkipped := stack1.contains true || isSkippedIt
        if !isSkipped then st.2 + 1 else st.2
      else st.2
    let st2 := visitForest cs (stack1, count1)
    if isEnteringDescribe then (st2.1.dropLast, st2.2) else st2
  | .other cs => visitForest cs st

/-- `ts.forEachChild(node, visit)`: visit each child in order. -/
def visitForest (f : TsForest) (st : List Bool × Nat) : List Bool × Nat :=
  match f with
  | .nil => st
  | .cons n ns => visitForest ns (visitNode n st)
end

/-- The result type of `getFileInfo` (`FileInfo` in `src/types.ts`). -/
structure FileInfo where
  file : String
  weight : Int
deriving DecidableEq, Repr

/-- Embeds `getFileInfo` from `src/utils/weightUtils.ts`.  The
`fs.readFileSync` + `ts.createSourceFile` pair is modelled by the
`contents` input: `.error` when the read/parse throws (the `catch`
branch returns `null`), `.ok` with the parsed top-level forest
otherwise. -/
def getFileInfo (filePath : String) (baseWeight weightPerTest : Int)
    (contents : Except String TsForest) : Option FileInfo :=
  match contents with
  | .error _ => none
  | .ok sourceFile =>
    let testCount := (visitForest sourceFile ([], 0)).2
    let weight :=
      if testCount > 0 then baseWeight + weightPerTest * (testCount : Int)
      else baseWeight
    some { file := filePath, weight := weight }

/-- The weighted-mode pipeline step of `runParallelCypress`:
`testFiles.map((file) => getFileInfo(file, BASE_WEIGHT, WEIGHT_PER_TEST))
.filter((info) => info !== null)`, with the filesystem/parser modelled by
the `reads` oracle; mapping then dropping the `null`s is `filterMap`. -/
def collectFilesInfo (baseWeight weightPerTest : Int) (testFiles : List String)
    (reads : String → Except String TsForest) : List FileInfo :=
  (testFiles.map (fun file => getFileInfo file baseWeight weightPerTest (reads file))).filterMap id

mutual
/-- Declarative active-test count, following the spec's description of the
Weight Estimator: a test-case declaration (`it(...)`) is active iff it is
not itself marked skipped and no enclosing suite is marked skipped
(`describe.skip`); `skipped` carries whether some enclosing suite is
skipped. -/
def activeCountSpec (skipped : Bool) : TsNode → Nat
  | .callExpr callee cs =>
    match callee with
    | .propAccess o m =>
      if o == "describe" && m == "skip" then activeForestSpec true cs
      else activeForestSpec skipped cs
    | .identC nm =>
      if nm == "it" then (if skipped then 0 else 1) + activeForestSpec skipped cs
      else activeForestSpec skipped cs
    | .otherCallee => activeForestSpec skipped cs
  | .other cs => activeForestSpec skipped cs

/-- Declarative active-test count of a forest. -/
def activeForestSpec (skipped : Bool) : TsForest → Nat
  | .nil => 0
  | .cons n ns => activeCountSpec skipped n + activeForestSpec skipped ns
end

/-! ## Bucket planner (`getFileBucketsCustom` in `src/index.ts`) -/

/-- The sort `filesInfo.sort((a, b) => b.weight - a.weight)`: JS
`Array.prototype.sort` with this comparator is the stable descending sort
by weight, which `List.insertionSort` with the total preorder
`b.weight ≤ a.weight` computes (stable sorts by the same key order agree
on every input). -/
def sortByWeightDesc (filesInfo : List FileInfo) : List FileInfo :=
  filesInfo.insertionSort (fun a b => b.weight ≤ a.weight)

/-- The body of the min-search loop of `getFileBucketsCustom`, folded
over the index range `[start, start + len)` with the current best index
`acc`: `if (bucketWeights[i] < bucketWeights[minIndex]) minIndex = i`. -/
def minIndexFold (bucketWeights : List Int) (start len acc : Nat) : Nat :=
  (List.range' start len).foldl
    (fun minIndex i =>
      if bucketWeights.getD i 0 < bucketWeights.getD minIndex 0 then i
      else minIndex)
    acc

/-- The inner loop `let minIndex = 0; for (let i = 1; i < bucketsCount;
i++) if (bucketWeights[i] < bucketWeights[minIndex]) minIndex = i`, with
`bucketsCount = bucketWeights.length` (the two are equal throughout the
planner). -/
def minWeightIndex (bucketWeights : List Int) : Nat :=
  minIndexFold bucketWeights 1 (bucketWeights.length - 1) 0

/-- One iteration of the distribution loop: find the least-total bucket,
append the file to it and add its weight to that bucket's total. -/
def distributeStep (acc : List (List String) × List Int) (fileInfo : FileInfo) :
    List (List String) × List Int :=
  let minIndex := minWeightIndex acc.2
  (acc.1.set minIndex (acc.1.getD minIndex [] ++ [fileInfo.file]),
   acc.2.set minIndex (acc.2.getD minIndex 0 + fileInfo.weight))

/-- The planner state after the distribution loop of `getFileBucketsCustom`:
the buckets and the running bucket weights (`buckets`, `bucketWeights` in
the source), both initialised to `bucketsCount` empty entries. -/
def bucketPlan (bucketsCount : Nat) (filesInfo : List FileInfo) :
    List (List String) × List Int :=
  (sortByWeightDesc filesInfo).foldl distributeStep
    (List.replicate bucketsCount [], List.replicate bucketsCount (0 : Int))

/-- Embeds `getFileBucketsCustom` from `src/index.ts` (the `filesInfo`
argument is typed, so the non-array early return cannot fire). -/
def getFileBucketsCustom (bucketsCount : Nat) (filesInfo : List FileInfo) :
    List (List String) :=
  (bucketPlan bucketsCount filesInfo).1

/-! ## Configuration (`src/utils/envUtils.ts`) -/

/-- Value of a digit list read in base 10. -/
def digitsToNat (ds : List Char) : Nat :=
  ds.foldl (fun n c => 10 * n + (c.toNat - '0'.toNat)) 0

/-- Model of JS `parseInt(value, 10)` on the strings this program meets:
skip leading whitespace, read an optional sign and then the longest
digit prefix; no digit at all gives `NaN`, modelled as `none`. -/
def parseIntJS (s : String) : Option Int :=
  let cs := s.toList.dropWhile (·.isWhitespace)
  let signed : Int × List Char :=
    match cs with
    | '-' :: r => (-1, r)
    | '+' :: r => (1, r)
    | r => (1, r)
  let ds := signed.2.takeWhile (·.isDigit)
  if ds.isEmpty then none else some (signed.1 * (digitsToNat ds : Int))

/-- Embeds the numeric overload of `getEnvVar`: an unset variable gives
the default, a set one is `parseInt`ed with the default as the `NaN`
fallback. -/
def getEnvVarNum (value : Option String) (defaultValue : Int) : Int :=
  match value with
  | none => defaultValue
  | some v =>
    match parseIntJS v with
    | none => defaultValue
    | some parsed => parsed

/-- Embeds the boolean overload of `getEnvVar`. -/
def getEnvVarBool (value : Option String) (defaultValue : Bool) : Bool :=
  match value with
  | none => defaultValue
  | some v => v == "true"

/-- The `WORKERS` field of `getConfig`:
`Math.min(getEnvVar('WORKERS', os.cpus().length), os.cpus().length)`.
`cpus` is the host's logical CPU count. -/
def configWorkers (workersEnv : Option String) (cpus : Int) : Int :=
  min (getEnvVarNum workersEnv cpus) cpus

/-! ## File discovery (`src/utils/fileUtils.ts`) -/

/-- The outcome `fs.statSync` has for the resolved directory path:
it throws, or yields stats of a non-directory, or of a directory. -/
inductive StatResult where
  | statError
  | statNonDir
  | statDir
deriving DecidableEq, Repr

/-- Embeds `validateDir`: `process.exit(1)` when `statSync` throws or the
path is not a directory, modelled as `.error` carrying the exit code. -/
def validateDir (stat : StatResult) : Except Nat Unit :=
  match stat with
  | .statError => .error 1
  | .statNonDir => .error 1
  | .statDir => .ok ()

mutual
/-- A filesystem entry under the search root (`fs.Dirent` view). -/
inductive FsEntry where
  | fileE (name : String)
  | dirE (name : String) (children : FsList)

/-- A directory listing in `fs.readdirSync` order. -/
inductive FsList where
  | nil
  | cons (entry : FsEntry) (rest : FsList)
end

mutual
/-- Embeds the per-entry work of `getTestFiles`: directories recurse and
are concatenated, regular files are pushed; `path.join` is `/`. -/
def getTestFilesEntry (dir : String) : FsEntry → List String
  | .fileE name => [dir ++ "/" ++ name]
  | .dirE name children => getTestFilesList (dir ++ "/" ++ name) children

/-- Embeds the `for (const entry of entries)` loop of `getTestFiles`. -/
def getTestFilesList (dir : String) : FsList → List String
  | .nil => []
  | .cons entry rest => getTestFilesEntry dir entry ++ getTestFilesList dir rest
end

/-- Embeds `collectTestFiles`: `process.exit(1)` on an empty listing,
modelled as `.error 1`. -/
def collectTestFiles (testFiles : List String) : Except Nat (List String) :=
  if testFiles.length = 0 then .error 1 else .ok testFiles

/-- The discovery part of `runParallelCypress`:
`validateDir(DIR)` then `collectTestFiles(resolvedDir)`.  An `.error`
means the process already exited with that code. -/
def runDiscovery (stat : StatResult) (root : String) (tree : FsList) :
    Except Nat (List String) :=
  match validateDir stat with
  | .error code => .error code
  | .ok _ => collectTestFiles (getTestFilesList root tree)

/-- The number of worker loops the polling branch starts:
`numWorkers = Math.min(WORKERS, totalTests)` and
`for (let i = 0; i < numWorkers; i++) promises.push(worker(i))`, which
runs `numWorkers` times when that value is nonnegative and zero times
otherwise. -/
def pollingWorkersSpawned (workers : Int) (totalTests : Nat) : Nat :=
  (min workers (totalTests : Int)).toNat

/-- `runParallelCypress` up to the point workers are spawned, polling
branch: discovery (early exits as `.error`), the unreachable
`totalTests === 0` exit-0 guard, then the spawn loop; `.ok` carries the
number of worker loops started. -/
def runPollingSetup (stat : StatResult) (root : String) (tree : FsList)
    (workers : Int) : Except Nat Nat :=
  match runDiscovery stat root tree with
  | .error code => .error code
  | .ok testFiles =>
    if testFiles.length = 0 then .error 0
    else .ok (pollingWorkersSpawned workers testFiles.length)

/-- `runParallelCypress` up to the point workers are spawned, weighted
bucketing branch: discovery, the unreachable `totalTests === 0` guard,
weight estimation, bucket planning, then one `runCypress` spawn per
non-empty bucket; `.ok` carries the number of processes spawned. -/
def runWeightedSetup (stat : StatResult) (root : String) (tree : FsList)
    (workers : Nat) (baseWeight weightPerTest : Int)
    (reads : String → Except String TsForest) : Except Nat Nat :=
  match runDiscovery stat root tree with
  | .error code => .error code
  | .ok testFiles =>
    if testFiles.length = 0 then .error 0
    else
      let filesInfo := collectFilesInfo baseWeight weightPerTest testFiles reads
      ((getFileBucketsCustom workers filesInfo).filter
        (fun bucket => !bucket.isEmpty)).length |> .ok

/-! ## Runner results, polling worker, aggregation (`src/index.ts`,
`src/runners/cypressRunner.ts`) -/

/-- What `runCypress` observes of one spawned runner process: either the
`close` event with an exit code, or an error (spawn failure / Xvfb
failure), which the surrounding `catch` turns into a rejected result. -/
inductive ProcEvent where
  | closed (code : Int)
  | errored
deriving DecidableEq, Repr

/-- A settled promise status as the code uses it. -/
inductive PromiseStatus where
  | fulfilled
  | rejected
deriving DecidableEq, Repr

/-- `CypressResult` from `src/types.ts`. -/
structure CypressResult where
  status : PromiseStatus
  index : Nat
  code : Option Int
deriving DecidableEq, Repr

/-- Embeds `createCypressResult` from `src/index.ts`. -/
def createCypressResult (status : PromiseStatus) (index : Nat)
    (code : Option Int) : CypressResult :=
  { status := status, index := index, code := code }

/-- Embeds `runCypress` from `src/runners/cypressRunner.ts`: exit code 0
fulfils, a nonzero exit code rejects with the code preserved, and any
thrown error is caught and rejects without a code. -/
def runCypress (ev : ProcEvent) (index : Nat) : CypressResult :=
  match ev with
  | .closed code =>
    if code ≠ 0 then { status := .rejected, index := index, code := some code }
    else { status := .fulfilled, index := index, code := some code }
  | .errored => { status := .rejected, index := index, code := none }

/-- Embeds the terminal result of the polling `worker` loop in
`src/index.ts`, given the runner events of the files this worker
dequeued, in order: `hasFailed` starts `false`, stays unchanged on a
fulfilled run and becomes `true` on any other outcome; the worker then
returns `createCypressResult(hasFailed ? 'rejected' : 'fulfilled',
workerIndex, hasFailed ? 1 : 0)`. -/
def workerResult (workerIndex : Nat) (events : List ProcEvent) : CypressResult :=
  let hasFailed := events.foldl
    (fun hasFailed ev =>
      if (runCypress ev workerIndex).status = .fulfilled then hasFailed
      else true)
    false
  createCypressResult (if hasFailed then .rejected else .fulfilled) workerIndex
    (some (if hasFailed then 1 else 0))

/-- Embeds the aggregation loop over `results`: `hasFailures` becomes
`true` on any rejected entry. -/
def aggregateHasFailures (results : List CypressResult) : Bool :=
  results.foldl
    (fun hasFailures result =>
      if result.status = .rejected then true else hasFailures)
    false

/-- The final `process.exit` argument: 1 when some worker failed, 0
otherwise. -/
def aggregateExitCode (results : List CypressResult) : Nat :=
  if aggregateHasFailures results then 1 else 0

/-! ## Polling work queue as a labelled transition system (`src/index.ts`)

The supervisor is a single-threaded event loop; inside one `worker` call
the check `queue.length > 0` and the `queue.shift()` run synchronously
with no `await` in between, so a dequeue is one atomic step.  The only
suspension point is `await runCypress(...)`, modelled as the `running`
phase.  Scheduling between workers is arbitrary. -/

/-- The phase one polling worker loop is in. -/
inductive WorkerPhase where
  /-- About to test the queue at the top of the `while (true)` loop. -/
  | idle
  /-- Suspended in `await runCypress([test], ...)`. -/
  | running (test : String)
  /-- Left the loop after observing an empty queue. -/
  | done
deriving DecidableEq, Repr

/-- The shared state of the polling run: the queue, each worker's phase,
and the dequeue history (files removed so far, in removal order). -/
structure PollState where
  queue : List String
  workers : List WorkerPhase
  history : List String
deriving DecidableEq, Repr

/-- The initial polling state: `queue = [...testFiles]`, `numWorkers`
idle worker loops, nothing dequeued yet. -/
def pollInit (testFiles : List String) (numWorkers : Nat) : PollState :=
  { queue := testFiles
    workers := List.replicate numWorkers .idle
    history := [] }

/-- One atomic step of the polling run, by worker `i`:
`dequeue` is the synchronous `queue.length > 0` check plus
`queue.shift()`; `finish` is `runCypress` settling; `exitLoop` is the
`break` on an empty queue. -/
inductive PollStep : PollState → PollState → Prop where
  | dequeue (s : PollState) (i : Nat) (t : String) (rest : List String)
      (hw : s.workers.get? i = some .idle) (hq : s.queue = t :: rest) :
      PollStep s
        { queue := rest
          workers := s.workers.set i (.running t)
          history := s.history ++ [t] }
  | finish (s : PollState) (i : Nat) (t : String)
      (hw : s.workers.get? i = some (.running t)) :
      PollStep s { s with workers := s.workers.set i .idle }
  | exitLoop (s : PollState) (i : Nat)
      (hw : s.workers.get? i = some .idle) (hq : s.queue = []) :
      PollStep s { s with workers := s.workers.set i .done }

/-- Reachability under an arbitrary interleaving of worker steps. -/
def PollReachable (testFiles : List String) (numWorkers : Nat)
    (s : PollState) : Prop :=
  Relation.ReflTransGen PollStep (pollInit testFiles numWorkers) s

/-- The polling-queue invariant: the dequeue history followed by the
remaining queue is exactly the discovered file list, and once any worker
has terminated the queue is (and stays) empty. -/
def PollInv (testFiles : List String) (s : PollState) : Prop :=
  s.history ++ s.queue = testFiles ∧
    ((∃ w ∈ s.workers, w = .done) → s.queue = [])

/-! ## Lemmas about `isCallTo` and the visit traversal -/

@[simp]
theorem isCallTo_identC_none (nm : String) (cs : TsForest) (m : String) :
    isCallTo (.callExpr (.identC nm) cs) none m = (nm == m) := rfl

@[simp]
theorem isCallTo_identC_some (nm : String) (cs : TsForest) (o m : String) :
    isCallTo (.callExpr (.identC nm) cs) (some o) m = false := rfl

@[simp]
theorem isCallTo_propAccess_none (o p : String) (cs : TsForest) (m : String) :
    isCallTo (.callExpr (.propAccess o p) cs) none m = false := rfl

@[simp]
theorem isCallTo_propAccess_some (o p : String) (cs : TsForest) (q m : String) :
    isCallTo (.callExpr (.propAccess o p) cs) (some q) m = (o == q && p == m) := rfl

@[simp]
theorem isCallTo_otherCallee (cs : TsForest) (oname : Option String) (m : String) :
    isCallTo (.callExpr .otherCallee cs) oname m = false := rfl

@[simp]
theorem isCallTo_otherNode (cs : TsForest) (oname : Option String) (m : String) :
    isCallTo (.other cs) oname m = false := rfl

@[simp]
theorem contains_concat_bool (s : List Bool) (b : Bool) :
    (s ++ [b]).contains true = (s.contains true || b) := by
  induction s with
  | nil => cases b <;> rfl
  | cons a t ih =>
    cases a <;> simp [List.contains_cons, ih]

theorem activeCountSpec_propAccess (sk : Bool) (o m : String) (cs : TsForest) :
    activeCountSpec sk (.callExpr (.propAccess o m) cs) =
      activeForestSpec (sk || (o == "describe" && m == "skip")) cs := by
  cases hds : (o == "describe" && m == "skip") <;>
    cases sk <;> simp [activeCountSpec, hds]

theorem activeCountSpec_identC (sk : Bool) (nm : String) (cs : TsForest) :
    activeCountSpec sk (.callExpr (.identC nm) cs) =
      (if nm == "it" && !sk then 1 else 0) + activeForestSpec sk cs := by
  cases hi : (nm == "it") <;> cases sk <;> simp [activeCountSpec, hi]

theorem activeCountSpec_otherCallee (sk : Bool) (cs : TsForest) :
    activeCountSpec sk (.callExpr .otherCallee cs) = activeForestSpec sk cs := by
  simp [activeCountSpec]

mutual
/-- The imperative stack traversal of `getFileInfo` computes the
declarative active count: the stack is restored on exit, and the count
grows by the number of `it` calls with no skipped enclosing suite. -/
theorem visitNode_count (n : TsNode) :
    ∀ (s : List Bool) (c : Nat),
      visitNode n (s, c) = (s, c + activeCountSpec (s.contains true) n) :=
  match n with
  | .callExpr (.identC nm) cs => by
    intro s c
    by_cases hd : nm = "describe"
    · subst hd
      have hf := visitForest_count cs (s ++ [false]) c
      simp [visitNode, activeCountSpec, hf, List.dropLast_concat]
    · have hdb : (nm == "describe") = false := beq_eq_false_iff_ne.mpr hd
      by_cases hs : nm = "it.skip"
      · subst hs
        have hf := visitForest_count cs s c
        simp [visitNode, activeCountSpec, hf, hdb]
      · have hsb : (nm == "it.skip") = false := beq_eq_false_iff_ne.mpr hs
        by_cases hi : nm = "it"
        · subst hi
          by_cases hm : true ∈ s
          · have hf := visitForest_count cs s c
            simp [visitNode, activeCountSpec, hf, hdb, hsb, hm]
          · have hf := visitForest_count cs s (c + 1)
            simp [visitNode, activeCountSpec, hf, hdb, hsb, hm, Nat.add_assoc]
        · have hib : (nm == "it") = false := beq_eq_false_iff_ne.mpr hi
          have hf := visitForest_count cs s c
          simp [visitNode, activeCountSpec, hf, hdb, hsb, hib]
  | .callExpr (.propAccess o m) cs => by
    intro s c
    cases hds : (o == "describe" && m == "skip")
    · have hf := visitForest_count cs s c
      simp [visitNode, activeCountSpec, hf, hds]
    · have hf := visitForest_count cs (s ++ [true]) c
      simp [visitNode, activeCountSpec, hf, hds, List.dropLast_concat]
  | .callExpr .otherCallee cs => by
    intro s c
    have hf := visitForest_count cs s c
    simp [visitNode, activeCountSpec, hf]
  | .other cs => by
    intro s c
    have hf := visitForest_count cs s c
    simp [visitNode, activeCountSpec, hf]

/-- Forest version of `visitNode_count`. -/
theorem visitForest_count (f : TsForest) :
    ∀ (s : List Bool) (c : Nat),
      visitForest f (s, c) = (s, c + activeForestSpec (s.contains true) f) :=
  match f with
  | .nil => by
    intro s c
    simp [visitForest, activeForestSpec]
  | .cons n ns => by
    intro s c
    have hn := visitNode_count n s c
    have hns := visitForest_count ns s (c + activeCountSpec (s.contains true) n)
    simp only [visitForest, activeForestSpec, hn, hns]
    simp [Nat.add_assoc]
end

/-- `getFileInfo` on a readable, parseable file: the weight in terms of
the declarative active-test count. -/
theorem getFileInfo_ok (p : String) (bw wpt : Int) (ast : TsForest) :
    getFileInfo p bw wpt (.ok ast) =
      some { file := p
             weight :=
               if activeForestSpec false ast = 0 then bw
               else bw + wpt * (activeForestSpec false ast : Int) } := by
  have h := visitForest_count ast [] 0
  cases hA : activeForestSpec false ast with
  | zero => simp [getFileInfo, h, hA]
  | succ k => simp [getFileInfo, h, hA]

/-- C2: for every readable, parseable file the Weight Estimator returns
`baseWeight` when there are zero active test cases and
`baseWeight + weightPerTest * activeTestCount` otherwise, where a test
case is active iff it is not itself skipped and no enclosing suite is
skipped (the stack-based DFS computes exactly that count); in particular
a file with two unskipped cases and no suites weighs
`baseWeight + 2 * weightPerTest`, and a file with one skipped suite
containing two cases plus one unskipped top-level case weighs
`baseWeight + 1 * weightPerTest`. -/
theorem weight_estimator_formula :
    (∀ (p : String) (bw wpt : Int) (ast : TsForest),
      getFileInfo p bw wpt (.ok ast) =
        some { file := p
               weight :=
                 if activeForestSpec false ast = 0 then bw
                 else bw + wpt * (activeForestSpec false ast : Int) }) ∧
    (∀ bw wpt : Int,
      getFileInfo "two-its.cy.ts" bw wpt
          (.ok (.cons (.callExpr (.identC "it") .nil)
            (.cons (.callExpr (.identC "it") .nil) .nil))) =
        some { file := "two-its.cy.ts", weight := bw + wpt * 2 }) ∧
    (∀ bw wpt : Int,
      getFileInfo "skipped-suite.cy.ts" bw wpt
          (.ok (.cons
            (.callExpr (.propAccess "describe" "skip")
              (.cons (.callExpr (.identC "it") .nil)
                (.cons (.callExpr (.identC "it") .nil) .nil)))
            (.cons (.callExpr (.identC "it") .nil) .nil))) =
        some { file := "skipped-suite.cy.ts", weight := bw + wpt * 1 }) := by
  refine ⟨fun p bw wpt ast => getFileInfo_ok p bw wpt ast,
    fun bw wpt => ?_, fun bw wpt => ?_⟩
  · rw [getFileInfo_ok]
    norm_num [activeForestSpec, activeCountSpec]
  · rw [getFileInfo_ok]
    norm_num [activeForestSpec, activeCountSpec]

/-- C10: only call expressions whose callee is the bare identifier `it`
increment the active-test count.  For every property-access call node
both `isCallTo(node, null, 'it.skip')` and `isCallTo(node, null, 'it')`
are false, so such a node contributes nothing itself (its children are
still traversed, under a skip flag only for `describe.skip`); an
identifier-callee node contributes 1 exactly when the identifier is `it`
and no enclosing suite is skipped. -/
theorem it_property_access_never_counted :
    (∀ (o m : String) (cs : TsForest),
      isCallTo (.callExpr (.propAccess o m) cs) none "it.skip" = false ∧
      isCallTo (.callExpr (.propAccess o m) cs) none "it" = false) ∧
    (∀ (o m : String) (cs : TsForest) (s : List Bool) (c : Nat),
      (visitNode (.callExpr (.propAccess o m) cs) (s, c)).2 =
        c + activeForestSpec (s.contains true || (o == "describe" && m == "skip")) cs) ∧
    (∀ (nm : String) (cs : TsForest) (s : List Bool) (c : Nat),
      (visitNode (.callExpr (.identC nm) cs) (s, c)).2 =
        c + ((if nm == "it" && !(s.contains true) then 1 else 0) +
          activeForestSpec (s.contains true) cs)) := by
  refine ⟨fun o m cs => ⟨rfl, rfl⟩, fun o m cs s c => ?_, fun nm cs s c => ?_⟩
  · rw [visitNode_count]
    simp [activeCountSpec_propAccess]
  · rw [visitNode_count]
    simp [activeCountSpec_identC]

/-! ## Lemmas about the bucket planner -/

/-- Loop invariant of the min-search: if `acc` is the least index of a
minimum over the prefix `[0, start)`, then folding over
`[start, start + len)` yields the least index of a minimum over
`[0, start + len)`. -/
theorem minIndexFold_spec (ws : List Int) :
    ∀ (len start acc : Nat), acc < start →
      (∀ j, j < start → ws.getD acc 0 ≤ ws.getD j 0) →
      (∀ j, j < acc → ws.getD acc 0 < ws.getD j 0) →
      minIndexFold ws start len acc < start + len ∧
        (∀ j, j < start + len → ws.getD (minIndexFold ws start len acc) 0 ≤ ws.getD j 0) ∧
        (∀ j, j < minIndexFold ws start len acc →
          ws.getD (minIndexFold ws start len acc) 0 < ws.getD j 0) := by
  intro len
  induction len with
  | zero =>
    intro start acc h1 h2 h3
    refine ⟨by simpa [minIndexFold] using h1, ?_, ?_⟩
    · intro j hj
      simpa [minIndexFold] using h2 j (by simpa using hj)
    · intro j hj
      simpa [minIndexFold] using h3 j (by simpa [minIndexFold] using hj)
  | succ k ih =>
    intro start acc h1 h2 h3
    have hstep : minIndexFold ws start (k + 1) acc =
        minIndexFold ws (start + 1) k
          (if ws.getD start 0 < ws.getD acc 0 then start else acc) := by
      simp [minIndexFold, List.range'_succ]
    by_cases hlt : ws.getD start 0 < ws.getD acc 0
    · have hnext := ih (start + 1) start (by omega)
        (fun j hj => by
          rcases Nat.lt_succ_iff_lt_or_eq.mp hj with hj' | hj'
          · exact le_of_lt (lt_of_lt_of_le hlt (h2 j hj'))
          · subst hj'
            exact le_refl _)
        (fun j hj => lt_of_lt_of_le hlt (h2 j (by omega)))
      rw [hstep, if_pos hlt]
      refine ⟨?_, ?_, hnext.2.2⟩
      · have := hnext.1
        omega
      · intro j hj
        exact hnext.2.1 j (by omega)
    · have hnext := ih (start + 1) acc (by omega)
        (fun j hj => by
          rcases Nat.lt_succ_iff_lt_or_eq.mp hj with hj' | hj'
          · exact h2 j hj'
          · subst hj'
            exact le_of_not_lt hlt)
        h3
      rw [hstep, if_neg hlt]
      refine ⟨?_, ?_, hnext.2.2⟩
      · have := hnext.1
        omega
      · intro j hj
        exact hnext.2.1 j (by omega)

/-- The min-search of the planner returns the least index holding the
minimum running bucket weight. -/
theorem minWeightIndex_spec (ws : List Int) (h : 0 < ws.length) :
    minWeightIndex ws < ws.length ∧
      (∀ j, j < ws.length → ws.getD (minWeightIndex ws) 0 ≤ ws.getD j 0) ∧
      (∀ j, j < minWeightIndex ws → ws.getD (minWeightIndex ws) 0 < ws.getD j 0) := by
  have hbase := minIndexFold_spec ws (ws.length - 1) 1 0 (by omega)
    (fun j hj => by
      have : j = 0 := by omega
      subst this
      exact le_refl _)
    (fun j hj => absurd hj (by omega))
  have hlen : 1 + (ws.length - 1) = ws.length := by omega
  rw [hlen] at hbase
  exact hbase

/-- Writing `ws[m] := ws[m] + w` adds `w` to the sum when `m` is in
range. -/
theorem sum_set_getD_add (ws : List Int) :
    ∀ (m : Nat) (w : Int), m < ws.length →
      (ws.set m (ws.getD m 0 + w)).sum = ws.sum + w := by
  induction ws with
  | nil =>
    intro m w h
    simp at h
  | cons a t ih =>
    intro m w h
    cases m with
    | zero =>
      rw [List.getD_cons_zero, List.set_cons_zero, List.sum_cons, List.sum_cons]
      ring
    | succ k =>
      have hk : k < t.length := by simpa using h
      rw [List.getD_cons_succ, List.set_cons_succ, List.sum_cons, List.sum_cons,
        ih k w hk]
      ring

/-- Appending `x` to bucket `m` makes the flattened bucket contents a
permutation of `x` consed onto the old flattened contents. -/
theorem join_set_append (bs : List (List String)) :
    ∀ (m : Nat) (x : String), m < bs.length →
      (bs.set m (bs.getD m [] ++ [x])).flatten.Perm (x :: bs.flatten) := by
  induction bs with
  | nil =>
    intro m x h
    simp at h
  | cons b t ih =>
    intro m x h
    cases m with
    | zero =>
      rw [List.getD_cons_zero, List.set_cons_zero, List.flatten_cons,
        List.flatten_cons, List.append_assoc]
      exact List.perm_middle
    | succ k =>
      have hk : k < t.length := by simpa using h
      rw [List.getD_cons_succ, List.set_cons_succ, List.flatten_cons,
        List.flatten_cons]
      refine ((ih k x hk).append_left b).trans ?_
      exact List.perm_middle

/-- Loop invariant of the distribution loop: lengths are preserved, the
bucket-weight total grows by the distributed files' weights, and the
flattened bucket contents grow by exactly the distributed files. -/
theorem distribute_foldl_spec :
    ∀ (l : List FileInfo) (bs : List (List String)) (ws : List Int),
      ws.length = bs.length → 0 < ws.length →
      (l.foldl distributeStep (bs, ws)).2.length = ws.length ∧
        (l.foldl distributeStep (bs, ws)).1.length = bs.length ∧
        (l.foldl distributeStep (bs, ws)).2.sum = ws.sum + (l.map (·.weight)).sum ∧
        (l.foldl distributeStep (bs, ws)).1.flatten.Perm
          (bs.flatten ++ l.map (·.file)) := by
  intro l
  induction l with
  | nil =>
    intro bs ws hlen hpos
    simp
  | cons fi rest ih =>
    intro bs ws hlen hpos
    have hm : minWeightIndex ws < ws.length := (minWeightIndex_spec ws hpos).1
    have hmb : minWeightIndex ws < bs.length := by omega
    have hnext := ih (bs.set (minWeightIndex ws) (bs.getD (minWeightIndex ws) [] ++ [fi.file]))
      (ws.set (minWeightIndex ws) (ws.getD (minWeightIndex ws) 0 + fi.weight))
      (by simpa using hlen) (by simpa using hpos)
    have hstep : (fi :: rest).foldl distributeStep (bs, ws) =
        rest.foldl distributeStep
          (bs.set (minWeightIndex ws) (bs.getD (minWeightIndex ws) [] ++ [fi.file]),
           ws.set (minWeightIndex ws) (ws.getD (minWeightIndex ws) 0 + fi.weight)) := by
      simp [distributeStep]
    rw [hstep]
    refine ⟨by simpa using hnext.1, by simpa using hnext.2.1, ?_, ?_⟩
    · rw [hnext.2.2.1, sum_set_getD_add ws _ _ hm]
      simp [List.sum_cons]
      ring
    · refine hnext.2.2.2.trans ?_
      refine ((join_set_append bs _ _ hmb).append_right _).trans ?_
      simp only [List.map_cons, List.cons_append]
      exact List.perm_middle.symm

/-- C1: the Bucket Planner implements the greedy
longest-processing-time-first heuristic.  The min-search loop returns
the bucket of minimal running total, ties broken by lowest index (every
earlier bucket is strictly heavier); the sort orders the files
descending by weight and permutes the input; and on bucket count 2 with
weights [10, 9, 8, 1] the planner yields bucket0 = [the 10-file, the
1-file] with total 11 and bucket1 = [the 9-file, the 8-file] with
total 17. -/
theorem bucket_planner_greedy_lpt :
    (∀ ws : List Int, 0 < ws.length →
      minWeightIndex ws < ws.length ∧
        (∀ j, j < ws.length → ws.getD (minWeightIndex ws) 0 ≤ ws.getD j 0) ∧
        (∀ j, j < minWeightIndex ws →
          ws.getD (minWeightIndex ws) 0 < ws.getD j 0)) ∧
    (∀ fs : List FileInfo,
      List.Sorted (fun a b : FileInfo => b.weight ≤ a.weight) (sortByWeightDesc fs) ∧
        (sortByWeightDesc fs).Perm fs) ∧
    (getFileBucketsCustom 2 [⟨"f10", 10⟩, ⟨"f9", 9⟩, ⟨"f8", 8⟩, ⟨"f1", 1⟩] =
        [["f10", "f1"], ["f9", "f8"]] ∧
      (bucketPlan 2 [⟨"f10", 10⟩, ⟨"f9", 9⟩, ⟨"f8", 8⟩, ⟨"f1", 1⟩]).2 = [11, 17]) := by
  refine ⟨minWeightIndex_spec, fun fs => ⟨?_, List.perm_insertionSort _ fs⟩,
    by decide, by decide⟩
  haveI : IsTotal FileInfo (fun a b => b.weight ≤ a.weight) :=
    ⟨fun a b => le_total b.weight a.weight⟩
  haveI : IsTrans FileInfo (fun a b => b.weight ≤ a.weight) :=
    ⟨fun a b c h1 h2 => le_trans h2 h1⟩
  exact List.sorted_insertionSort _ fs

/-- Witness for `bucket_planner_greedy_lpt` at `ws = [10, 0, 5]`: the
min-search lands on an in-range index whose weight is at most the weight
at index 2. -/
theorem bucket_planner_greedy_lpt_witness :
    [(10 : Int), 0, 5].getD (minWeightIndex [(10 : Int), 0, 5]) 0 ≤
      [(10 : Int), 0, 5].getD 2 0 :=
  (bucket_planner_greedy_lpt.1 [(10 : Int), 0, 5] (by decide)).2.1 2 (by decide)

/-- C3: for every file list and bucket count `B ≥ 1` the planner returns
exactly `B` buckets, the bucket weights sum to the total input weight,
and the bucket contents are a permutation of the input files (each file
placed exactly once). -/
theorem bucket_planner_partition (B : Nat) (fs : List FileInfo) (hB : 1 ≤ B) :
    (getFileBucketsCustom B fs).length = B ∧
      (bucketPlan B fs).2.sum = (fs.map (·.weight)).sum ∧
      (getFileBucketsCustom B fs).flatten.Perm (fs.map (·.file)) := by
  have hlen : (List.replicate B (0 : Int)).length =
      (List.replicate B ([] : List String)).length := by simp
  have hpos : 0 < (List.replicate B (0 : Int)).length := by simpa using hB
  have h := distribute_foldl_spec (sortByWeightDesc fs)
    (List.replicate B []) (List.replicate B 0) hlen hpos
  have hperm : (sortByWeightDesc fs).Perm fs := List.perm_insertionSort _ fs
  have hrep : (List.replicate B ([] : List String)).flatten = [] := by simp
  refine ⟨?_, ?_, ?_⟩
  · have := h.2.1
    simpa [getFileBucketsCustom, bucketPlan] using this
  · have := h.2.2.1
    rw [show (bucketPlan B fs).2 =
        ((sortByWeightDesc fs).foldl distributeStep
          (List.replicate B [], List.replicate B 0)).2 from rfl, this]
    simp [(hperm.map (·.weight)).sum_eq]
  · have := h.2.2.2
    rw [show getFileBucketsCustom B fs =
        ((sortByWeightDesc fs).foldl distributeStep
          (List.replicate B [], List.replicate B 0)).1 from rfl]
    refine this.trans ?_
    rw [hrep, List.nil_append]
    exact hperm.map (·.file)

/-- Witness for `bucket_planner_partition` at `B = 2`,
`fs = [("a", 3), ("b", 1)]`. -/
theorem bucket_planner_partition_witness :
    (getFileBucketsCustom 2 [⟨"a", 3⟩, ⟨"b", 1⟩]).length = 2 ∧
      (bucketPlan 2 [⟨"a", 3⟩, ⟨"b", 1⟩]).2.sum =
        (([⟨"a", 3⟩, ⟨"b", 1⟩] : List FileInfo).map (·.weight)).sum ∧
      (getFileBucketsCustom 2 [⟨"a", 3⟩, ⟨"b", 1⟩]).flatten.Perm
        (([⟨"a", 3⟩, ⟨"b", 1⟩] : List FileInfo).map (·.file)) :=
  bucket_planner_partition 2 [⟨"a", 3⟩, ⟨"b", 1⟩] (by decide)

/-! ## Lemmas about worker status and aggregation -/

theorem status_not_fulfilled_iff (st : PromiseStatus) :
    ¬st = .fulfilled ↔ st = .rejected := by
  cases st <;> simp

/-- The `hasFailed` accumulation of the polling worker loop. -/
theorem workerFold_spec (idx : Nat) :
    ∀ (evs : List ProcEvent) (b : Bool),
      (evs.foldl (fun hasFailed ev =>
        if (runCypress ev idx).status = .fulfilled then hasFailed else true) b) = true ↔
      (b = true ∨ ∃ ev ∈ evs, (runCypress ev idx).status = .rejected) := by
  intro evs
  induction evs with
  | nil =>
    intro b
    simp
  | cons e rest ih =>
    intro b
    simp only [List.foldl_cons]
    by_cases he : (runCypress e idx).status = .fulfilled
    · rw [if_pos he, ih b]
      simp [he]
    · rw [if_neg he]
      have htrue : (rest.foldl (fun hasFailed ev =>
          if (runCypress ev idx).status = .fulfilled then hasFailed else true)
            true) = true :=
        (ih true).mpr (Or.inl rfl)
      rw [htrue]
      simp only [true_iff]
      exact Or.inr ⟨e, List.mem_cons_self e rest,
        (status_not_fulfilled_iff _).mp he⟩

/-- The `hasFailures` accumulation of the aggregation loop. -/
theorem aggFold_spec :
    ∀ (results : List CypressResult) (b : Bool),
      (results.foldl (fun hasFailures result =>
        if result.status = .rejected then true else hasFailures) b) = true ↔
      (b = true ∨ ∃ r ∈ results, r.status = .rejected) := by
  intro results
  induction results with
  | nil =>
    intro b
    simp
  | cons r rest ih =>
    intro b
    simp only [List.foldl_cons]
    by_cases hr : r.status = .rejected
    · rw [if_pos hr]
      have htrue : (rest.foldl (fun hasFailures result =>
          if result.status = .rejected then true else hasFailures) true) = true :=
        (ih true).mpr (Or.inl rfl)
      rw [htrue]
      simp only [true_iff]
      exact Or.inr ⟨r, List.mem_cons_self r rest, hr⟩
    · rw [if_neg hr, ih b]
      simp [hr]

/-- A polling worker's terminal status is rejected iff some processed
file run settled rejected. -/
theorem workerResult_rejected_iff (idx : Nat) (evs : List ProcEvent) :
    (workerResult idx evs).status = .rejected ↔
      ∃ ev ∈ evs, (runCypress ev idx).status = .rejected := by
  have hflag := workerFold_spec idx evs false
  have hdef : (workerResult idx evs).status =
      (if evs.foldl (fun hasFailed ev =>
          if (runCypress ev idx).status = .fulfilled then hasFailed else true) false
        then PromiseStatus.rejected else PromiseStatus.fulfilled) := rfl
  cases hfold : evs.foldl (fun hasFailed ev =>
      if (runCypress ev idx).status = .fulfilled then hasFailed else true) false
  · rw [hfold] at hflag hdef
    simp only [Bool.false_eq_true, if_false] at hdef
    refine iff_of_false (by simp [hdef]) ?_
    intro hex
    exact absurd (hflag.mpr (Or.inr hex)) (by simp)
  · rw [hfold] at hflag hdef
    simp only [if_true] at hdef
    refine iff_of_true hdef ?_
    rcases hflag.mp rfl with h | h
    · exact absurd h (by simp)
    · exact h

/-- `hasFailures` is set iff some worker result is rejected. -/
theorem aggregateHasFailures_iff (results : List CypressResult) :
    aggregateHasFailures results = true ↔
      ∃ r ∈ results, r.status = .rejected := by
  rw [show aggregateHasFailures results = results.foldl
      (fun hasFailures result =>
        if result.status = .rejected then true else hasFailures) false from rfl,
    aggFold_spec results false]
  simp

/-- C4: in polling mode a worker's terminal status is rejected iff it
recorded at least one failed file run (else fulfilled), and the
aggregator exits 1 iff some worker result is rejected and 0 iff all
worker results are fulfilled. -/
theorem polling_status_and_aggregation :
    (∀ (idx : Nat) (evs : List ProcEvent),
      ((workerResult idx evs).status = .rejected ↔
        ∃ ev ∈ evs, (runCypress ev idx).status = .rejected) ∧
      ((workerResult idx evs).status = .fulfilled ↔
        ∀ ev ∈ evs, (runCypress ev idx).status = .fulfilled)) ∧
    (∀ results : List CypressResult,
      (aggregateExitCode results = 1 ↔ ∃ r ∈ results, r.status = .rejected) ∧
      (aggregateExitCode results = 0 ↔ ∀ r ∈ results, r.status = .fulfilled)) := by
  refine ⟨fun idx evs => ⟨workerResult_rejected_iff idx evs, ?_⟩,
    fun results => ⟨?_, ?_⟩⟩
  · have h := workerResult_rejected_iff idx evs
    constructor
    · intro hful ev hmem
      by_contra hne
      have hrej := h.mpr ⟨ev, hmem, (status_not_fulfilled_iff _).mp hne⟩
      rw [hful] at hrej
      exact absurd hrej (by simp)
    · intro hall
      cases hst : (workerResult idx evs).status
      · rfl
      · rcases h.mp hst with ⟨ev, hmem, hrej⟩
        have := hall ev hmem
        rw [this] at hrej
        exact absurd hrej (by simp)
  · have h := aggregateHasFailures_iff results
    rw [show aggregateExitCode results =
        (if aggregateHasFailures results then 1 else 0) from rfl]
    cases haf : aggregateHasFailures results
    · rw [haf] at h
      simp only [Bool.false_eq_true, false_iff] at h
      exact iff_of_false (by simp) h
    · rw [haf] at h
      exact iff_of_true (by simp) (h.mp rfl)
  · have h := aggregateHasFailures_iff results
    rw [show aggregateExitCode results =
        (if aggregateHasFailures results then 1 else 0) from rfl]
    cases haf : aggregateHasFailures results
    · rw [haf] at h
      simp only [Bool.false_eq_true, false_iff] at h
      refine iff_of_true (by simp) ?_
      intro r hmem
      by_contra hne
      exact h ⟨r, hmem, (status_not_fulfilled_iff _).mp hne⟩
    · rw [haf] at h
      rcases h.mp rfl with ⟨r, hmem, hrej⟩
      refine iff_of_false (by simp) ?_
      intro hall
      have := hall r hmem
      rw [this] at hrej
      exact absurd hrej (by simp)

/-- C7: a failed read/parse yields `null` rather than an exception, the
file is excluded from the weight computation (dropping it from the input
list leaves the result unchanged), and every produced `FileInfo` comes
from a successfully read file. -/
theorem failed_read_excluded :
    (∀ (p : String) (bw wpt : Int) (e : String),
      getFileInfo p bw wpt (.error e) = none) ∧
    (∀ (bw wpt : Int) (reads : String → Except String TsForest) (p : String)
      (e : String) (pre post : List String), reads p = .error e →
      collectFilesInfo bw wpt (pre ++ p :: post) reads =
        collectFilesInfo bw wpt (pre ++ post) reads) ∧
    (∀ (bw wpt : Int) (reads : String → Except String TsForest)
      (files : List String) (fi : FileInfo),
      fi ∈ collectFilesInfo bw wpt files reads →
      ∃ f ∈ files, getFileInfo f bw wpt (reads f) = some fi) := by
  refine ⟨fun p bw wpt e => rfl, ?_, ?_⟩
  · intro bw wpt reads p e pre post hread
    simp only [collectFilesInfo, List.map_append, List.map_cons,
      List.filterMap_append, List.filterMap_cons, hread]
    rfl
  · intro bw wpt reads files fi hmem
    simp only [collectFilesInfo, List.mem_filterMap, List.mem_map, id] at hmem
    rcases hmem with ⟨o, ⟨f, hf, ho⟩, hid⟩
    exact ⟨f, hf, by rw [ho, hid]⟩

/-- Witness for `failed_read_excluded`: with a reader that always fails,
the failing file `b` is dropped from the pipeline. -/
theorem failed_read_excluded_witness :
    collectFilesInfo 1 1 (["a"] ++ "b" :: []) (fun _ => .error "ENOENT") =
      collectFilesInfo 1 1 (["a"] ++ []) (fun _ => .error "ENOENT") :=
  failed_read_excluded.2.1 1 1 (fun _ => .error "ENOENT") "b" "ENOENT" ["a"] [] rfl

/-! ## Weight positivity (C5) and worker clamping (C8) -/

/-- C5 counterexample: the configuration loader accepts `BASE_WEIGHT=-5`
(`parseInt` parses it, so the default is not used), and a file with no
active tests then gets weight -5, which is not a positive integer. -/
theorem weight_positivity_counterexample :
    getEnvVarNum (some "-5") 1 = -5 ∧
      getFileInfo "f.cy.ts" (getEnvVarNum (some "-5") 1) 1 (.ok .nil) =
        some { file := "f.cy.ts", weight := -5 } ∧
      ¬(0 < ({ file := "f.cy.ts", weight := -5 } : FileInfo).weight) := by
  refine ⟨by decide, by decide, by decide⟩

/-- C5 amended: for every readable file the weight is at least
`baseWeight`, and positive, provided `weightPerTest ≥ 0` and
`baseWeight ≥ 1` (which hold for the defaults); the loader itself also
accepts negative values, under which the invariant can fail. -/
theorem weight_bounds_nonneg_config (p : String) (bw wpt : Int) (ast : TsForest)
    (fi : FileInfo) (hwpt : 0 ≤ wpt) (hbw : 1 ≤ bw)
    (hfi : getFileInfo p bw wpt (.ok ast) = some fi) :
    bw ≤ fi.weight ∧ 0 < fi.weight := by
  rw [getFileInfo_ok] at hfi
  have hw : fi.weight =
      (if activeForestSpec false ast = 0 then bw
       else bw + wpt * (activeForestSpec false ast : Int)) := by
    cases fi
    cases hfi
    rfl
  by_cases hA : activeForestSpec false ast = 0
  · rw [hw, if_pos hA]
    exact ⟨le_refl bw, by omega⟩
  · rw [hw, if_neg hA]
    have hmul : 0 ≤ wpt * (activeForestSpec false ast : Int) :=
      mul_nonneg hwpt (Int.natCast_nonneg _)
    constructor
    · omega
    · omega

/-- Witness for `weight_bounds_nonneg_config` at `baseWeight = 1`,
`weightPerTest = 1` and an empty source file. -/
theorem weight_bounds_nonneg_config_witness :
    (1 : Int) ≤ ({ file := "w.cy.ts", weight := 1 } : FileInfo).weight ∧
      0 < ({ file := "w.cy.ts", weight := 1 } : FileInfo).weight :=
  weight_bounds_nonneg_config "w.cy.ts" 1 1 .nil
    { file := "w.cy.ts", weight := 1 } (by decide) (by decide) (by decide)

/-- `collectTestFiles` succeeds only on its (non-empty) input list. -/
theorem collectTestFiles_ok (l files : List String)
    (h : collectTestFiles l = .ok files) : files = l ∧ l.length ≠ 0 := by
  by_cases hl : l.length = 0
  · rw [show collectTestFiles l = .error 1 from by simp [collectTestFiles, hl]] at h
    cases h
  · rw [show collectTestFiles l = .ok l from by simp [collectTestFiles, hl]] at h
    cases h
    exact ⟨rfl, hl⟩

/-- C8 counterexample: the loader accepts `WORKERS=-1` (parsed by
`parseInt`), the effective worker count is then -1, and on a one-file
run the polling branch spawns 0 worker loops while
`min(effective, totalFileCount)` is -1 — so "spawns exactly the min"
fails for this accepted configuration. -/
theorem workers_spawn_min_counterexample :
    configWorkers (some "-1") 4 = -1 ∧
      runPollingSetup .statDir "r" (.cons (.fileE "a") .nil)
        (configWorkers (some "-1") 4) = .ok 0 ∧
      min (configWorkers (some "-1") 4) ((1 : Nat) : Int) = -1 ∧
      ¬((pollingWorkersSpawned (configWorkers (some "-1") 4) 1 : Int) =
        min (configWorkers (some "-1") 4) ((1 : Nat) : Int)) := by
  exact ⟨by decide, rfl, by decide, by decide⟩

/-- C8 amended: the effective worker count is the configured value
clamped to at most the CPU count (and defaults to the CPU count when
unset); the polling branch spawns `toNat (min effective totalFiles)`
worker loops, which equals `min(effective, totalFiles)` exactly when
the effective count is nonnegative. -/
theorem workers_clamp_and_spawn :
    (∀ (env : Option String) (cpus : Int),
      configWorkers env cpus ≤ cpus ∧ configWorkers none cpus = cpus) ∧
    (∀ (stat : StatResult) (root : String) (tree : FsList) (workers : Int)
      (files : List String), runDiscovery stat root tree = .ok files →
      runPollingSetup stat root tree workers =
        .ok (min workers (files.length : Int)).toNat) ∧
    (∀ (workers : Int) (total : Nat), 0 ≤ workers →
      (pollingWorkersSpawned workers total : Int) =
        min workers (total : Int)) := by
  refine ⟨fun env cpus => ⟨min_le_right _ _, min_self cpus⟩, ?_, ?_⟩
  · intro stat root tree workers files hdisc
    have hne : files.length ≠ 0 := by
      cases stat
      · cases hdisc
      · cases hdisc
      · rcases collectTestFiles_ok _ _ hdisc with ⟨heq, hlen⟩
        subst heq
        exact hlen
    rw [show runPollingSetup stat root tree workers =
        (match runDiscovery stat root tree with
          | .error code => .error code
          | .ok testFiles =>
            if testFiles.length = 0 then .error 0
            else .ok (pollingWorkersSpawned workers testFiles.length)) from rfl,
      hdisc]
    simp [pollingWorkersSpawned, hne]
  · intro workers total hw
    have hmin : 0 ≤ min workers (total : Int) :=
      le_min hw (Int.natCast_nonneg total)
    simp [pollingWorkersSpawned, Int.toNat_of_nonneg hmin]

/-- Witness for `workers_clamp_and_spawn`: 2 workers, 5 files, spawn
count 2 as an integer min. -/
theorem workers_clamp_and_spawn_witness :
    (pollingWorkersSpawned 2 5 : Int) = min (2 : Int) ((5 : Nat) : Int) :=
  workers_clamp_and_spawn.2.2 2 5 (by decide)

/-- C6: an invalid directory (stat failure or non-directory) or an empty
recursive listing makes the run exit with code 1 during discovery, in
both modes, before any bucket planning or worker spawn (the setup
functions return the exit instead of a spawn count). -/
theorem invalid_dir_or_empty_exits_before_spawn :
    (∀ (stat : StatResult) (root : String) (tree : FsList) (workers : Int),
      stat ≠ .statDir →
        runPollingSetup stat root tree workers = .error 1) ∧
    (∀ (stat : StatResult) (root : String) (tree : FsList) (workers : Nat)
      (bw wpt : Int) (reads : String → Except String TsForest),
      stat ≠ .statDir →
        runWeightedSetup stat root tree workers bw wpt reads = .error 1) ∧
    (∀ (stat : StatResult) (root : String) (tree : FsList) (workers : Int),
      getTestFilesList root tree = [] →
        runPollingSetup stat root tree workers = .error 1) ∧
    (∀ (stat : StatResult) (root : String) (tree : FsList) (workers : Nat)
      (bw wpt : Int) (reads : String → Except String TsForest),
      getTestFilesList root tree = [] →
        runWeightedSetup stat root tree workers bw wpt reads = .error 1) := by
  refine ⟨?_, ?_, ?_, ?_⟩
  · intro stat root tree workers hstat
    cases stat
    · rfl
    · rfl
    · exact absurd rfl hstat
  · intro stat root tree workers bw wpt reads hstat
    cases stat
    · rfl
    · rfl
    · exact absurd rfl hstat
  · intro stat root tree workers hempty
    cases stat
    · rfl
    · rfl
    · simp [runPollingSetup, runDiscovery, validateDir, collectTestFiles, hempty]
  · intro stat root tree workers bw wpt reads hempty
    cases stat
    · rfl
    · rfl
    · simp [runWeightedSetup, runDiscovery, validateDir, collectTestFiles, hempty]

/-- Witness for `invalid_dir_or_empty_exits_before_spawn`: a stat
failure exits 1 in polling mode; an empty tree exits 1 in weighted
mode. -/
theorem invalid_dir_or_empty_exits_before_spawn_witness :
    runPollingSetup .statError "r" .nil 4 = .error 1 ∧
      runWeightedSetup .statDir "r" .nil 4 1 1 (fun _ => .ok .nil) = .error 1 :=
  ⟨invalid_dir_or_empty_exits_before_spawn.1 .statError "r" .nil 4 (by decide),
    invalid_dir_or_empty_exits_before_spawn.2.2.2 .statDir "r" .nil 4 1 1
      (fun _ => .ok .nil) rfl⟩

/-! ## The polling queue invariant (C9) -/

theorem pollInv_init (files : List String) (n : Nat) :
    PollInv files (pollInit files n) := by
  constructor
  · simp [pollInit]
  · intro hex
    rcases hex with ⟨w, hwmem, hwdone⟩
    simp only [pollInit] at hwmem
    have := List.eq_of_mem_replicate hwmem
    rw [this] at hwdone
    cases hwdone

theorem pollInv_step (files : List String) {s t : PollState}
    (hstep : PollStep s t) (hinv : PollInv files s) : PollInv files t := by
  cases hstep with
  | dequeue i x rest hw hq =>
    constructor
    · have h1 := hinv.1
      rw [hq] at h1
      simpa [List.append_assoc] using h1
    · intro hex
      rcases hex with ⟨w, hwmem, hwdone⟩
      rcases List.mem_or_eq_of_mem_set hwmem with hmem | heq
      · have hq0 := hinv.2 ⟨w, hmem, hwdone⟩
        rw [hq] at hq0
        cases hq0
      · rw [heq] at hwdone
        cases hwdone
  | finish i x hw =>
    refine ⟨hinv.1, ?_⟩
    intro hex
    rcases hex with ⟨w, hwmem, hwdone⟩
    rcases List.mem_or_eq_of_mem_set hwmem with hmem | heq
    · exact hinv.2 ⟨w, hmem, hwdone⟩
    · rw [heq] at hwdone
      cases hwdone
  | exitLoop i hw hq =>
    exact ⟨hinv.1, fun _ => hq⟩

theorem pollInv_reachable (files : List String) (n : Nat) (s : PollState)
    (h : PollReachable files n s) : PollInv files s := by
  induction h with
  | refl => exact pollInv_init files n
  | tail h1 hstep ih => exact pollInv_step files hstep ih

theorem poll_workers_length (files : List String) (n : Nat) (s : PollState)
    (h : PollReachable files n s) : s.workers.length = n := by
  induction h with
  | refl => simp [pollInit]
  | tail h1 hstep ih =>
    cases hstep <;> simpa [List.length_set] using ih

/-- C9: in polling mode dequeues are mutually exclusive and exhaustive.
In every reachable state the dequeue history followed by the remaining
queue is exactly the discovered file list (so the queue only shrinks and
no file is ever dequeued by two workers: no file is dequeued more often
than it occurs), and when all worker loops have terminated (with at
least one spawned) the queue is empty and the history is exactly the
file list — every discovered file was dequeued and attempted exactly
once. -/
theorem poll_queue_exclusive_drain (files : List String) (n : Nat)
    (s : PollState) (hreach : PollReachable files n s) :
    s.history ++ s.queue = files ∧
      (∀ f, s.history.count f ≤ files.count f) ∧
      (1 ≤ n → (∀ w ∈ s.workers, w = .done) →
        s.queue = [] ∧ s.history = files) := by
  have hinv := pollInv_reachable files n s hreach
  have hlen := poll_workers_length files n s hreach
  refine ⟨hinv.1, ?_, ?_⟩
  · intro f
    calc s.history.count f ≤ s.history.count f + s.queue.count f :=
          Nat.le_add_right _ _
      _ = (s.history ++ s.queue).count f := (List.count_append _ _ _).symm
      _ = files.count f := by rw [hinv.1]
  · intro hn hall
    have hne : s.workers ≠ [] := by
      intro hnil
      rw [hnil] at hlen
      simp only [List.length_nil] at hlen
      omega
    obtain ⟨w, hw⟩ : ∃ w, w ∈ s.workers :=
      List.exists_mem_of_ne_nil s.workers hne
    have hq : s.queue = [] := hinv.2 ⟨w, hw, hall w hw⟩
    refine ⟨hq, ?_⟩
    have h1 := hinv.1
    rw [hq, List.append_nil] at h1
    exact h1

/-- Witness for `poll_queue_exclusive_drain`: the complete run of one
worker over the one-file list `["a"]` — dequeue, finish, observe the
empty queue and terminate. -/
theorem poll_queue_exclusive_drain_witness :
    ({ queue := [], workers := [.done], history := ["a"] } : PollState).history ++
        ({ queue := [], workers := [.done], history := ["a"] } : PollState).queue = ["a"] ∧
      (∀ f, ({ queue := [], workers := [.done], history := ["a"] } : PollState).history.count f ≤
        (["a"] : List String).count f) ∧
      (1 ≤ 1 → (∀ w ∈ ({ queue := [], workers := [.done], history := ["a"] } : PollState).workers,
          w = .done) →
        ({ queue := [], workers := [.done], history := ["a"] } : PollState).queue = [] ∧
          ({ queue := [], workers := [.done], history := ["a"] } : PollState).history = ["a"]) := by
  refine poll_queue_exclusive_drain ["a"] 1
    { queue := [], workers := [.done], history := ["a"] } ?_
  have h1 : PollStep (pollInit ["a"] 1)
      { queue := [], workers := [.running "a"], history := ["a"] } :=
    PollStep.dequeue (pollInit ["a"] 1) 0 "a" [] rfl rfl
  have h2 : PollStep
      ({ queue := [], workers := [.running "a"], history := ["a"] } : PollState)
      { queue := [], workers := [.idle], history := ["a"] } :=
    PollStep.finish _ 0 "a" rfl
  have h3 : PollStep
      ({ queue := [], workers := [.idle], history := ["a"] } : PollState)
      { queue := [], workers := [.done], history := ["a"] } :=
    PollStep.exitLoop _ 0 rfl rfl
  exact ((Relation.ReflTransGen.refl.tail h1).tail h2).tail h3

end CyParallel
